import Mathlib

/-!
Verification of the exhaustiveness / usefulness analyzer in
`crates/compiler/exhaustive/src/lib.rs` (Maranget-style pattern-matrix
algorithm).

Shallow embedding conventions:

* Rust `Vec<Pattern>` rows are Lean `List Pattern` in the same order; the
  *last* element is the "current" column, matching the source's
  pop-from-the-right convention (`row.pop()` = `getLast?`/`dropLast`,
  `row.push x` = `row ++ [x]`).
* `MutMap<TagId, Union>` is modelled as an association list with distinct
  keys; `insert` overwrites in place, `iter().next()` is the head entry
  (a deterministic choice of the hash map's unspecified iteration order;
  all observable uses agree on any order for well-formed inputs).
* `internal_error!` / `panic!` paths are modelled by `Option`: a function
  that can abort returns `none` on the aborting inputs.  Per-row
  specializers return `SpecResult` (`Keep`/`Drop`/`Abort`), mirroring
  `Option<Row>`-returning functions whose bodies can additionally panic.
* Opaque foreign types (`Region`, `Symbol`, `TagName`, `Lowercase`,
  `HumanIndex`, the 16-byte literal payloads) are modelled as `Nat` /
  `String` tokens; only their decidable equality is used by the source.
-/

namespace RocExhaustive

/-- `roc_region::all::Region`: an opaque source region token. -/
structure Region where
  startOffset : Nat
  endOffset : Nat
deriving DecidableEq, Repr

/-- `TagId(pub TagIdIntType)` (a small integer). -/
structure TagId where
  tag : Nat
deriving DecidableEq, Repr

/-- `CtorName`: user tag name or nominal (source: `Opaque`) symbol, both
opaque equatable tokens. -/
inductive CtorName
  | Tag (name : String)
  | Nominal (sym : Nat)
deriving DecidableEq, Repr

/-- `Ctor { name, tag_id, arity }`. -/
structure Ctor where
  name : CtorName
  tag_id : TagId
  arity : Nat
deriving DecidableEq, Repr

/-- `RenderAs` (the `Opaque` alternative is spelled `Nominal` here). -/
inductive RenderAs
  | Tag
  | Nominal
  | Record (fields : List String)
  | Guard
deriving DecidableEq, Repr

/-- `Union { alternatives, render_as }`. -/
structure Union where
  alternatives : List Ctor
  render_as : RenderAs
deriving DecidableEq, Repr

/-- `Union::newtype_wrapper`. -/
def Union.newtype_wrapper (name : CtorName) (arity : Nat) : Union :=
  { alternatives := [{ name := name, tag_id := ⟨0⟩, arity := arity }]
    render_as := RenderAs.Tag }

/-- `ListArity`: `Exact n` or `Slice before after`. -/
inductive ListArity
  | Exact (n : Nat)
  | Slice (numBefore numAfter : Nat)
deriving DecidableEq, Repr

namespace ListArity

/-- `ListArity::min_len`. -/
def min_len : ListArity → Nat
  | .Exact n => n
  | .Slice l r => l + r

/-- `ListArity::covers_arity` — transcribed from the source's four-case
match. -/
def covers_arity : ListArity → ListArity → Bool
  | .Exact l, .Exact r => l = r
  | .Exact this_exact, .Slice other_left other_right =>
      this_exact = other_left + other_right
  | .Slice this_left this_right, .Exact other_exact =>
      this_left + this_right ≤ other_exact
  | .Slice this_left this_right, .Slice other_left other_right =>
      this_left + this_right ≤ other_left + other_right

end ListArity

/-- `Literal`; the fixed-width payloads are modelled as `Nat`/`String`
tokens (the source only compares them for equality). -/
inductive Literal
  | Int (v : Nat)
  | U128 (v : Nat)
  | Bit (b : Bool)
  | Byte (b : Nat)
  | Float (bits : Nat)
  | Decimal (v : Nat)
  | Str (s : String)
deriving DecidableEq, Repr

/-- `Pattern`. -/
inductive Pattern
  | Anything
  | Literal (l : Literal)
  | Ctor (union : Union) (tag : TagId) (args : List Pattern)
  | List (arity : ListArity) (args : List Pattern)
deriving Repr

/-- `Context`. -/
inductive Context
  | BadArg
  | BadDestruct
  | BadCase
deriving DecidableEq, Repr

/-- `Guard` flag. -/
inductive Guard
  | HasGuard
  | NoGuard
deriving DecidableEq, Repr

/-- `Error`; `HumanIndex` is modelled as `Nat`. -/
inductive Error
  | Incomplete (region : Region) (context : Context) (witnesses : List Pattern)
  | Redundant (overall_region : Region) (branch_region : Region) (index : Nat)
  | Unmatchable (overall_region : Region) (branch_region : Region) (index : Nat)

abbrev Row := List Pattern
abbrev PatternMatrix := List Row

/-! ### Termination measure

`patSize` counts the non-wildcard nodes of a pattern; every specialization
step removes the dispatched node from each surviving row, so the total
count over a matrix (plus, for `is_useful`, the candidate vector) only
ever shrinks.  This is the measure justifying the source's recursion. -/

mutual

/-- Number of non-`Anything` nodes of a pattern (termination measure). -/
def patSize : Pattern → Nat
  | .Anything => 0
  | .Literal _ => 1
  | .Ctor _ _ args => 1 + patSizeList args
  | .List _ args => 1 + patSizeList args

/-- Total `patSize` of a list of patterns. -/
def patSizeList : List Pattern → Nat
  | [] => 0
  | p :: ps => patSize p + patSizeList ps

end

/-- Total `patSize` of a matrix. -/
def matSize : PatternMatrix → Nat
  | [] => 0
  | r :: rs => patSizeList r + matSize rs

/-! ### Specialization kernels

Per-row specialization returns `Keep`/`Drop`/`Abort`; `Abort` models the
source's `internal_error!`/`panic!` calls. -/

/-- Outcome of specializing one row. -/
inductive SpecResult
  | Keep (row : Row)
  | Drop
  | Abort
deriving Repr

/-- `specialize_row_by_anything`: keep the row minus its last column iff
the last column is a wildcard (this function never panics). -/
def specialize_row_by_anything (row : Row) : Option Row :=
  match row.getLast? with
  | some .Anything => some row.dropLast
  | _ => none

/-- `specialize_row_by_ctor` (the kernel used by `is_exhaustive`): the
constructor's arguments are placed *before* the remaining columns
(`new_patterns.extend(args); new_patterns.extend(patterns)`). -/
def specialize_row_by_ctor (tag_id : TagId) (arity : Nat) (row : Row) : SpecResult :=
  match row.getLast? with
  | some (.Ctor _ id args) =>
      if id = tag_id then .Keep (args ++ row.dropLast) else .Drop
  | some .Anything => .Keep (List.replicate arity .Anything ++ row.dropLast)
  | some (.List _ _) => .Abort
  | some (.Literal _) => .Abort
  | none => .Abort

/-- One row of `specialize_row_by_ctor2` (the kernel used by `is_useful`):
the constructor's arguments are appended *after* the remaining columns
(`patterns.extend(args)`). -/
def specialize_row_by_ctor2_row (tag_id : TagId) (arity : Nat) (row : Row) : SpecResult :=
  match row.getLast? with
  | some (.Ctor _ id args) =>
      if id = tag_id then .Keep (row.dropLast ++ args) else .Drop
  | some .Anything => .Keep (row.dropLast ++ List.replicate arity .Anything)
  | some (.List _ _) => .Abort
  | some (.Literal _) => .Abort
  | none => .Abort

/-- One row of `specialize_row_by_list`.  A covering `List` row is either
expanded in the middle with wildcards (variable-length slice) or kept
as-is; an `Anything` row expands to `min_len` wildcards.  The `Exact`
sub-case inside the expanding branch is the source's `internal_error!`
(unreachable under `covers_arity`), and out-of-range argument slicing
(`args[..before]` / `args[min_len - after..]`) is an `Abort` too. -/
def specialize_row_by_list_row (spec_arity : ListArity) (row : Row) : SpecResult :=
  match row.getLast? with
  | some (.List this_arity args) =>
      if this_arity.covers_arity spec_arity then
        if spec_arity.min_len ≠ this_arity.min_len then
          match this_arity with
          | .Exact _ => .Abort
          | .Slice numBefore numAfter =>
              if numBefore ≤ args.length ∧ this_arity.min_len - numAfter ≤ args.length then
                .Keep (row.dropLast ++
                  (args.take numBefore ++
                   List.replicate (spec_arity.min_len - this_arity.min_len) .Anything ++
                   args.drop (this_arity.min_len - numAfter)))
              else .Abort
        else .Keep (row.dropLast ++ args)
      else .Drop
  | some .Anything => .Keep (row.dropLast ++ List.replicate spec_arity.min_len .Anything)
  | some (.Ctor _ _ _) => .Abort
  | some (.Literal _) => .Abort
  | none => .Abort

/-- One row of the `Literal` arm of `is_useful`'s loop: keep rows whose
last column is the same literal or a wildcard, drop other literals,
abort on lists/constructors/empty rows. -/
def specialize_row_by_literal_row (lit : Literal) (row : Row) : SpecResult :=
  match row.getLast? with
  | some (.Literal l) => if l = lit then .Keep row.dropLast else .Drop
  | some .Anything => .Keep row.dropLast
  | some (.List _ _) => .Abort
  | some (.Ctor _ _ _) => .Abort
  | none => .Abort

/-- Apply a per-row specializer to every row in order, keeping the `Keep`
results; `none` if any row aborts (an `internal_error!` run). -/
def specialize_matrix (f : Row → SpecResult) : PatternMatrix → Option PatternMatrix
  | [] => some []
  | r :: rs =>
      match f r with
      | .Abort => none
      | .Drop => specialize_matrix f rs
      | .Keep r' => (specialize_matrix f rs).map (r' :: ·)

/-- `specialize_row_by_ctor2` (matrix-level, as in the source, which
drains `old_matrix` into `matrix`). -/
def specialize_row_by_ctor2 (tag_id : TagId) (arity : Nat) (m : PatternMatrix) :
    Option PatternMatrix :=
  specialize_matrix (specialize_row_by_ctor2_row tag_id arity) m

/-- `specialize_row_by_list` (matrix-level, as in the source). -/
def specialize_row_by_list (spec_arity : ListArity) (m : PatternMatrix) :
    Option PatternMatrix :=
  specialize_matrix (specialize_row_by_list_row spec_arity) m

/-! ### Ctor collection -/

/-- `MutMap::insert`: overwrite an existing key in place, otherwise add
the entry. -/
def insertCtor (m : List (TagId × Union)) (id : TagId) (u : Union) :
    List (TagId × Union) :=
  if m.any (fun e => e.1 = id) then
    m.map (fun e => if e.1 = id then (id, u) else e)
  else m ++ [(id, u)]

/-- `collect_ctors` loop with explicit accumulator. -/
def collect_ctors_go (acc : List (TagId × Union)) : PatternMatrix → List (TagId × Union)
  | [] => acc
  | row :: rows =>
      collect_ctors_go
        (match row.getLast? with
         | some (.Ctor union id _) => insertCtor acc id union
         | _ => acc)
        rows

/-- `collect_ctors`: map each tag id appearing as the last pattern of a
row (as a constructor) to its union. -/
def collect_ctors (matrix : PatternMatrix) : List (TagId × Union) :=
  collect_ctors_go [] matrix

/-- `Complete`. -/
inductive Complete
  | Yes (alternatives : List Ctor)
  | No

/-- `is_complete`: all constructors of the (arbitrarily chosen) union are
present in the matrix's last column. -/
def is_complete (matrix : PatternMatrix) : Complete :=
  let ctors := collect_ctors matrix
  match ctors with
  | [] => Complete.No
  | (_, u) :: _ =>
      if ctors.length = u.alternatives.length then Complete.Yes u.alternatives
      else Complete.No

/-- `is_missing`: a wildcard-argument pattern for `ctor` when its tag does
not occur in the collected map. -/
def is_missing (union : Union) (ctors : List (TagId × Union)) (ctor : Ctor) :
    Option Pattern :=
  if ctors.any (fun e => e.1 = ctor.tag_id) then none
  else some (Pattern.Ctor union ctor.tag_id (List.replicate ctor.arity .Anything))

/-- `recover_ctor`: rewrap the first `arity` columns of a specialized
witness row as the constructor's arguments (`split_off`'s precondition
`arity ≤ patterns.length` always holds on `is_exhaustive`'s outputs, see
`is_exhaustive_width`). -/
def recover_ctor (union : Union) (tag_id : TagId) (arity : Nat) (patterns : Row) : Row :=
  patterns.drop arity ++ [Pattern.Ctor union tag_id (patterns.take arity)]

/-! ### Size bookkeeping lemmas (for termination) -/

/-- The last column of `row` is a constructor pattern. -/
def isCtorLast (row : Row) : Prop :=
  ∃ u t args, row.getLast? = some (Pattern.Ctor u t args)

theorem patSizeList_append (xs ys : List Pattern) :
    patSizeList (xs ++ ys) = patSizeList xs + patSizeList ys := by
  induction xs with
  | nil => simp [patSizeList]
  | cons p ps ih =>
    show patSize p + patSizeList (ps ++ ys) = patSize p + patSizeList ps + patSizeList ys
    rw [ih]; omega

theorem patSizeList_replicate_anything (n : Nat) :
    patSizeList (List.replicate n Pattern.Anything) = 0 := by
  induction n with
  | zero => rfl
  | succ k ih => simpa [List.replicate_succ, patSizeList, patSize] using ih

theorem dropLast_concat_getLast? (row : Row) (p : Pattern)
    (h : row.getLast? = some p) : row = row.dropLast ++ [p] := by
  induction row with
  | nil => simp at h
  | cons a t ih =>
    cases t with
    | nil =>
      simp only [List.getLast?_singleton, Option.some.injEq] at h
      subst h
      rfl
    | cons b t' =>
      have h' : (b :: t').getLast? = some p := by
        simpa [List.getLast?_cons_cons] using h
      have ht := ih h'
      calc a :: b :: t' = a :: ((b :: t').dropLast ++ [p]) := by rw [← ht]
        _ = (a :: b :: t').dropLast ++ [p] := by
            simp [List.dropLast_cons_of_ne_nil]

theorem patSizeList_of_getLast? (row : Row) (p : Pattern)
    (h : row.getLast? = some p) :
    patSizeList row = patSizeList row.dropLast + patSize p := by
  conv_lhs => rw [dropLast_concat_getLast? row p h]
  simp [patSizeList_append, patSizeList]

/-! Concat-form reductions of the per-row kernels (rows written as
`rs ++ [p]`, i.e. remaining columns plus current column). -/

@[simp] theorem spec_ctor_concat_ctor (t : TagId) (a : Nat) (rs : Row) (u tid args) :
    specialize_row_by_ctor t a (rs ++ [Pattern.Ctor u tid args]) =
      if tid = t then .Keep (args ++ rs) else .Drop := by
  simp [specialize_row_by_ctor, List.getLast?_concat, List.dropLast_concat]

@[simp] theorem spec_ctor_concat_any (t : TagId) (a : Nat) (rs : Row) :
    specialize_row_by_ctor t a (rs ++ [Pattern.Anything]) =
      .Keep (List.replicate a .Anything ++ rs) := by
  simp [specialize_row_by_ctor, List.getLast?_concat, List.dropLast_concat]

@[simp] theorem spec_ctor_concat_list (t : TagId) (a : Nat) (rs : Row) (ar args) :
    specialize_row_by_ctor t a (rs ++ [Pattern.List ar args]) = .Abort := by
  simp [specialize_row_by_ctor, List.getLast?_concat]

@[simp] theorem spec_ctor_concat_lit (t : TagId) (a : Nat) (rs : Row) (l) :
    specialize_row_by_ctor t a (rs ++ [Pattern.Literal l]) = .Abort := by
  simp [specialize_row_by_ctor, List.getLast?_concat]

@[simp] theorem spec_ctor_nil (t : TagId) (a : Nat) :
    specialize_row_by_ctor t a [] = .Abort := rfl

@[simp] theorem spec_ctor2_concat_ctor (t : TagId) (a : Nat) (rs : Row) (u tid args) :
    specialize_row_by_ctor2_row t a (rs ++ [Pattern.Ctor u tid args]) =
      if tid = t then .Keep (rs ++ args) else .Drop := by
  simp [specialize_row_by_ctor2_row, List.getLast?_concat, List.dropLast_concat]

@[simp] theorem spec_ctor2_concat_any (t : TagId) (a : Nat) (rs : Row) :
    specialize_row_by_ctor2_row t a (rs ++ [Pattern.Anything]) =
      .Keep (rs ++ List.replicate a .Anything) := by
  simp [specialize_row_by_ctor2_row, List.getLast?_concat, List.dropLast_concat]

@[simp] theorem spec_ctor2_concat_list (t : TagId) (a : Nat) (rs : Row) (ar args) :
    specialize_row_by_ctor2_row t a (rs ++ [Pattern.List ar args]) = .Abort := by
  simp [specialize_row_by_ctor2_row, List.getLast?_concat]

@[simp] theorem spec_ctor2_concat_lit (t : TagId) (a : Nat) (rs : Row) (l) :
    specialize_row_by_ctor2_row t a (rs ++ [Pattern.Literal l]) = .Abort := by
  simp [specialize_row_by_ctor2_row, List.getLast?_concat]

@[simp] theorem spec_ctor2_nil (t : TagId) (a : Nat) :
    specialize_row_by_ctor2_row t a [] = .Abort := rfl

@[simp] theorem spec_list_concat_list_exact (ar : ListArity) (rs : Row) (n args) :
    specialize_row_by_list_row ar (rs ++ [Pattern.List (.Exact n) args]) =
      (if ListArity.covers_arity (.Exact n) ar then
        if ar.min_len ≠ n then .Abort else .Keep (rs ++ args)
      else .Drop) := by
  simp only [specialize_row_by_list_row, List.getLast?_concat, List.dropLast_concat,
    ListArity.min_len]

@[simp] theorem spec_list_concat_list_slice (ar : ListArity) (rs : Row) (nb na args) :
    specialize_row_by_list_row ar (rs ++ [Pattern.List (.Slice nb na) args]) =
      (if ListArity.covers_arity (.Slice nb na) ar then
        if ar.min_len ≠ nb + na then
          if nb ≤ args.length ∧ nb + na - na ≤ args.length then
            .Keep (rs ++
              (args.take nb ++
               List.replicate (ar.min_len - (nb + na)) .Anything ++
               args.drop (nb + na - na)))
          else .Abort
        else .Keep (rs ++ args)
      else .Drop) := by
  simp only [specialize_row_by_list_row, List.getLast?_concat, List.dropLast_concat,
    ListArity.min_len]

@[simp] theorem spec_list_concat_any (ar : ListArity) (rs : Row) :
    specialize_row_by_list_row ar (rs ++ [Pattern.Anything]) =
      .Keep (rs ++ List.replicate ar.min_len .Anything) := by
  simp [specialize_row_by_list_row, List.getLast?_concat, List.dropLast_concat]

@[simp] theorem spec_list_concat_ctor (ar : ListArity) (rs : Row) (u tid args) :
    specialize_row_by_list_row ar (rs ++ [Pattern.Ctor u tid args]) = .Abort := by
  simp [specialize_row_by_list_row, List.getLast?_concat]

@[simp] theorem spec_list_concat_lit (ar : ListArity) (rs : Row) (l) :
    specialize_row_by_list_row ar (rs ++ [Pattern.Literal l]) = .Abort := by
  simp [specialize_row_by_list_row, List.getLast?_concat]

@[simp] theorem spec_list_nil (ar : ListArity) :
    specialize_row_by_list_row ar [] = .Abort := rfl

@[simp] theorem spec_lit_concat_lit (lit : Literal) (rs : Row) (l) :
    specialize_row_by_literal_row lit (rs ++ [Pattern.Literal l]) =
      (if l = lit then .Keep rs else .Drop) := by
  simp [specialize_row_by_literal_row, List.getLast?_concat, List.dropLast_concat]

@[simp] theorem spec_lit_concat_any (lit : Literal) (rs : Row) :
    specialize_row_by_literal_row lit (rs ++ [Pattern.Anything]) = .Keep rs := by
  simp [specialize_row_by_literal_row, List.getLast?_concat, List.dropLast_concat]

@[simp] theorem spec_lit_concat_list (lit : Literal) (rs : Row) (ar args) :
    specialize_row_by_literal_row lit (rs ++ [Pattern.List ar args]) = .Abort := by
  simp [specialize_row_by_literal_row, List.getLast?_concat]

@[simp] theorem spec_lit_concat_ctor (lit : Literal) (rs : Row) (u tid args) :
    specialize_row_by_literal_row lit (rs ++ [Pattern.Ctor u tid args]) = .Abort := by
  simp [specialize_row_by_literal_row, List.getLast?_concat]

@[simp] theorem spec_lit_nil (lit : Literal) :
    specialize_row_by_literal_row lit [] = .Abort := rfl

@[simp] theorem spec_anything_concat_any (rs : Row) :
    specialize_row_by_anything (rs ++ [Pattern.Anything]) = some rs := by
  simp [specialize_row_by_anything, List.getLast?_concat, List.dropLast_concat]

@[simp] theorem spec_anything_concat_ctor (rs : Row) (u tid args) :
    specialize_row_by_anything (rs ++ [Pattern.Ctor u tid args]) = none := by
  simp [specialize_row_by_anything, List.getLast?_concat]

@[simp] theorem spec_anything_concat_lit (rs : Row) (l) :
    specialize_row_by_anything (rs ++ [Pattern.Literal l]) = none := by
  simp [specialize_row_by_anything, List.getLast?_concat]

@[simp] theorem spec_anything_concat_list (rs : Row) (ar args) :
    specialize_row_by_anything (rs ++ [Pattern.List ar args]) = none := by
  simp [specialize_row_by_anything, List.getLast?_concat]

@[simp] theorem spec_anything_nil : specialize_row_by_anything [] = none := rfl

/-- Decompose a row into `dropLast ++ [getLast]` or `[]`. -/
theorem row_decomp (row : Row) :
    row = [] ∨ ∃ rs p, row = rs ++ [p] := by
  cases hl : row.getLast? with
  | none =>
    left
    cases row with
    | nil => rfl
    | cons a t => exact absurd hl (by simp [List.getLast?_concat, List.getLast?])
  | some p => exact Or.inr ⟨row.dropLast, p, dropLast_concat_getLast? row p hl⟩

/-- Per-row bound for the `is_exhaustive` constructor kernel. -/
theorem spec_ctor_keep_le {t a row r'}
    (h : specialize_row_by_ctor t a row = .Keep r') :
    patSizeList r' ≤ patSizeList row := by
  rcases row_decomp row with hrow | ⟨rs, p, hrow⟩
  · subst hrow; simp at h
  · subst hrow
    cases p with
    | Anything =>
      simp only [spec_ctor_concat_any, SpecResult.Keep.injEq] at h
      subst h
      simp [patSizeList_append, patSizeList_replicate_anything, patSizeList, patSize]
    | Literal l => simp at h
    | Ctor u tid args =>
      rw [spec_ctor_concat_ctor] at h
      by_cases hid : tid = t
      · rw [if_pos hid] at h
        cases h
        simp only [patSizeList_append, patSizeList, patSize]
        omega
      · rw [if_neg hid] at h; cases h
    | List ar args => simp at h

/-- Per-row strict decrease for ctor-last rows (`is_exhaustive` kernel). -/
theorem spec_ctor_keep_lt_of_ctorLast {t a row r'}
    (hc : isCtorLast row)
    (h : specialize_row_by_ctor t a row = .Keep r') :
    patSizeList r' < patSizeList row := by
  obtain ⟨u, tid, args, hl⟩ := hc
  have hrow := dropLast_concat_getLast? row _ hl
  rw [hrow] at h
  rw [spec_ctor_concat_ctor] at h
  rw [hrow]
  by_cases hid : tid = t
  · rw [if_pos hid] at h
    cases h
    simp only [patSizeList_append, patSizeList, patSize]
    omega
  · rw [if_neg hid] at h; cases h

theorem patSizeList_pos_of_ctorLast {row : Row} (hc : isCtorLast row) :
    0 < patSizeList row := by
  obtain ⟨u, tid, args, hl⟩ := hc
  rw [dropLast_concat_getLast? row _ hl]
  simp [patSizeList_append, patSizeList, patSize]

/-- Per-row bound for the `is_useful` constructor kernel. -/
theorem spec_ctor2_keep_le {t a row r'}
    (h : specialize_row_by_ctor2_row t a row = .Keep r') :
    patSizeList r' ≤ patSizeList row := by
  rcases row_decomp row with hrow | ⟨rs, p, hrow⟩
  · subst hrow; simp at h
  · subst hrow
    cases p with
    | Anything =>
      simp only [spec_ctor2_concat_any, SpecResult.Keep.injEq] at h
      subst h
      simp [patSizeList_append, patSizeList_replicate_anything, patSizeList, patSize]
    | Literal l => simp at h
    | Ctor u tid args =>
      rw [spec_ctor2_concat_ctor] at h
      by_cases hid : tid = t
      · rw [if_pos hid] at h
        cases h
        simp only [patSizeList_append, patSizeList, patSize]
        omega
      · rw [if_neg hid] at h; cases h
    | List ar args => simp at h

theorem spec_ctor2_keep_lt_of_ctorLast {t a row r'}
    (hc : isCtorLast row)
    (h : specialize_row_by_ctor2_row t a row = .Keep r') :
    patSizeList r' < patSizeList row := by
  obtain ⟨u, tid, args, hl⟩ := hc
  have hrow := dropLast_concat_getLast? row _ hl
  rw [hrow] at h
  rw [spec_ctor2_concat_ctor] at h
  rw [hrow]
  by_cases hid : tid = t
  · rw [if_pos hid] at h
    cases h
    simp only [patSizeList_append, patSizeList, patSize]
    omega
  · rw [if_neg hid] at h; cases h

/-- Per-row bound for the list kernel. -/
theorem spec_list_keep_le {ar row r'}
    (h : specialize_row_by_list_row ar row = .Keep r') :
    patSizeList r' ≤ patSizeList row := by
  rcases row_decomp row with hrow | ⟨rs, p, hrow⟩
  · subst hrow; simp at h
  · subst hrow
    cases p with
    | Anything =>
      simp only [spec_list_concat_any, SpecResult.Keep.injEq] at h
      subst h
      simp [patSizeList_append, patSizeList_replicate_anything, patSizeList, patSize]
    | Literal l => simp at h
    | Ctor u tid args => simp at h
    | List this_ar args =>
      cases this_ar with
      | Exact n =>
        rw [spec_list_concat_list_exact] at h
        by_cases hcov : ListArity.covers_arity (.Exact n) ar
        · rw [if_pos hcov] at h
          by_cases hne : ar.min_len ≠ n
          · rw [if_pos hne] at h; cases h
          · rw [if_neg hne] at h
            cases h
            simp only [patSizeList_append, patSizeList, patSize]
            omega
        · rw [if_neg hcov] at h; cases h
      | Slice nb na =>
        rw [spec_list_concat_list_slice] at h
        by_cases hcov : ListArity.covers_arity (.Slice nb na) ar
        · rw [if_pos hcov] at h
          by_cases hne : ar.min_len ≠ nb + na
          · rw [if_pos hne] at h
            by_cases hrange : nb ≤ args.length ∧ nb + na - na ≤ args.length
            · rw [if_pos hrange] at h
              cases h
              have hidx : nb + na - na = nb := by omega
              rw [hidx]
              have hsplit : patSizeList (args.take nb) + patSizeList (args.drop nb)
                  = patSizeList args := by
                rw [← patSizeList_append, List.take_append_drop]
              simp only [patSizeList_append, patSizeList_replicate_anything,
                patSizeList, patSize]
              omega
            · rw [if_neg hrange] at h; cases h
          · rw [if_neg hne] at h
            cases h
            simp only [patSizeList_append, patSizeList, patSize]
            omega
        · rw [if_neg hcov] at h; cases h

/-- Per-row bound for the literal kernel. -/
theorem spec_literal_keep_le {lit row r'}
    (h : specialize_row_by_literal_row lit row = .Keep r') :
    patSizeList r' ≤ patSizeList row := by
  rcases row_decomp row with hrow | ⟨rs, p, hrow⟩
  · subst hrow; simp at h
  · subst hrow
    cases p with
    | Anything =>
      simp only [spec_lit_concat_any, SpecResult.Keep.injEq] at h
      subst h
      simp [patSizeList_append, patSizeList, patSize]
    | Literal l =>
      rw [spec_lit_concat_lit] at h
      by_cases hll : l = lit
      · rw [if_pos hll] at h
        cases h
        simp [patSizeList_append, patSizeList, patSize]
      · rw [if_neg hll] at h; cases h
    | Ctor u tid args => simp at h
    | List ar2 args => simp at h


/-- Matrix-level: a specializer whose kept rows do not grow keeps the
total size from growing. -/
theorem matSize_specialize_matrix_le {f : Row → SpecResult}
    (hf : ∀ r r', f r = .Keep r' → patSizeList r' ≤ patSizeList r) :
    ∀ {m m'}, specialize_matrix f m = some m' → matSize m' ≤ matSize m := by
  intro m
  induction m with
  | nil =>
    intro m' h
    unfold specialize_matrix at h
    injection h with h
    subst h
    exact Nat.le_refl _
  | cons r rs ih =>
    intro m' h
    unfold specialize_matrix at h
    cases hr : f r with
    | Abort => rw [hr] at h; cases h
    | Drop =>
      rw [hr] at h
      have := ih h
      simp only [matSize]
      omega
    | Keep r' =>
      rw [hr] at h
      cases hrs : specialize_matrix f rs with
      | none => rw [hrs] at h; cases h
      | some ms =>
        rw [hrs] at h
        have h2 : r' :: ms = m' := by simpa using h
        subst h2
        have h1 := ih hrs
        have h3 := hf r r' hr
        simp only [matSize]
        omega

/-- Matrix-level strict decrease: if some row has a constructor in its
last column, a kernel that strictly shrinks constructor-last kept rows
strictly shrinks the matrix. -/
theorem matSize_specialize_matrix_lt {f : Row → SpecResult}
    (hf : ∀ r r', f r = .Keep r' → patSizeList r' ≤ patSizeList r)
    (hstrict : ∀ r r', isCtorLast r → f r = .Keep r' → patSizeList r' < patSizeList r) :
    ∀ {m m'}, specialize_matrix f m = some m' →
      (∃ r ∈ m, isCtorLast r) → matSize m' < matSize m := by
  intro m
  induction m with
  | nil =>
    intro m' h hex
    simp at hex
  | cons r rs ih =>
    intro m' h hex
    unfold specialize_matrix at h
    obtain ⟨r₀, hr₀m, hr₀c⟩ := hex
    rcases List.mem_cons.mp hr₀m with hr₀ | hr₀
    · subst hr₀
      cases hr : f r₀ with
      | Abort => rw [hr] at h; cases h
      | Drop =>
        rw [hr] at h
        have h1 := matSize_specialize_matrix_le hf h
        have h2 := patSizeList_pos_of_ctorLast hr₀c
        simp only [matSize]
        omega
      | Keep r' =>
        rw [hr] at h
        cases hrs : specialize_matrix f rs with
        | none => rw [hrs] at h; cases h
        | some ms =>
          rw [hrs] at h
          have h2 : r' :: ms = m' := by simpa using h
          subst h2
          have h1 := matSize_specialize_matrix_le hf hrs
          have h3 := hstrict r₀ r' hr₀c hr
          simp only [matSize]
          omega
    · cases hr : f r with
      | Abort => rw [hr] at h; cases h
      | Drop =>
        rw [hr] at h
        have := ih h ⟨r₀, hr₀, hr₀c⟩
        simp only [matSize]
        omega
      | Keep r' =>
        rw [hr] at h
        cases hrs : specialize_matrix f rs with
        | none => rw [hrs] at h; cases h
        | some ms =>
          rw [hrs] at h
          have h2 : r' :: ms = m' := by simpa using h
          subst h2
          have h1 := ih hrs ⟨r₀, hr₀, hr₀c⟩
          have h3 := hf r r' hr
          simp only [matSize]
          omega

/-- Wildcard specialization does not grow the matrix. -/
theorem matSize_filterMap_anything_le (m : PatternMatrix) :
    matSize (m.filterMap specialize_row_by_anything) ≤ matSize m := by
  induction m with
  | nil => simp [matSize]
  | cons r rs ih =>
    cases hr : specialize_row_by_anything r with
    | none => simp [List.filterMap_cons, hr, matSize]; omega
    | some r' =>
      unfold specialize_row_by_anything at hr
      cases hl : r.getLast? with
      | none => rw [hl] at hr; cases hr
      | some p =>
        rw [hl] at hr
        cases p with
        | Anything =>
          simp only [Option.some.injEq] at hr
          subst hr
          have hrow := patSizeList_of_getLast? r _ hl
          simp [List.filterMap_cons, specialize_row_by_anything, hl, matSize, hrow, patSize]
          omega
        | Literal l => cases hr
        | Ctor u id args => cases hr
        | List ar args => cases hr

/-- If no row ends in a constructor, `collect_ctors_go` returns its
accumulator unchanged. -/
theorem collect_ctors_go_no_ctor {m : PatternMatrix} {acc}
    (h : ∀ r ∈ m, ¬ isCtorLast r) : collect_ctors_go acc m = acc := by
  induction m generalizing acc with
  | nil => rfl
  | cons r rs ih =>
    have hr : ∀ u t args, r.getLast? ≠ some (Pattern.Ctor u t args) := by
      intro u t args hc
      exact h r (List.mem_cons_self _ _) ⟨u, t, args, hc⟩
    unfold collect_ctors_go
    have : (match r.getLast? with
        | some (.Ctor union id _) => insertCtor acc id union
        | _ => acc) = acc := by
      cases hl : r.getLast? with
      | none => rfl
      | some p => cases p with
        | Ctor u id args => exact absurd hl (hr u id args)
        | Anything => rfl
        | Literal l => rfl
        | List ar args => rfl
    rw [this]
    exact ih (fun x hx => h x (List.mem_cons_of_mem _ hx))

/-- A non-empty `collect_ctors` result exhibits a constructor-last row. -/
theorem exists_ctorLast_of_collect_ne_nil {m : PatternMatrix}
    (h : collect_ctors m ≠ []) : ∃ r ∈ m, isCtorLast r := by
  by_contra hc
  push_neg at hc
  exact h (collect_ctors_go_no_ctor hc)

/-- A `Complete.Yes` verdict exhibits a constructor-last row. -/
theorem exists_ctorLast_of_complete_yes {m : PatternMatrix} {alts}
    (h : is_complete m = Complete.Yes alts) : ∃ r ∈ m, isCtorLast r := by
  apply exists_ctorLast_of_collect_ne_nil
  intro hnil
  simp only [is_complete, hnil] at h
  cases h

/-- Lexicographic helper for the triple termination measures. -/
theorem lex3 {a a' b b' c c' : Nat}
    (h : a < a' ∨ (a = a' ∧ (b < b' ∨ (b = b' ∧ c < c')))) :
    Prod.Lex (· < ·) (Prod.Lex (· < ·) (· < ·)) (a, b, c) (a', b', c') := by
  rcases h with h | ⟨rfl, h⟩
  · exact Prod.Lex.left _ _ h
  · apply Prod.Lex.right
    rcases h with h | ⟨rfl, h⟩
    · exact Prod.Lex.left _ _ h
    · exact Prod.Lex.right _ h

/-! ### The exhaustiveness recursion -/

mutual

/-- `is_exhaustive`: the list of witness rows (each of width `n`) that
`matrix` fails to cover; `none` models an `internal_error!` run.  The
`collect_ctors`-empty case is the source's `num_seen == 0` wildcard
branch; a non-empty collection picks its first entry's union
(`ctors.iter().next().unwrap().1`) and either runs the partial-coverage
Cartesian construction or specializes by every alternative. -/
def is_exhaustive (matrix : PatternMatrix) (n : Nat) : Option PatternMatrix :=
  if matrix.isEmpty then some [List.replicate n Pattern.Anything]
  else if h0 : n = 0 then some []
  else
    match hc : collect_ctors matrix with
    | [] =>
        (is_exhaustive (matrix.filterMap specialize_row_by_anything) (n - 1)).map
          (fun rest => rest.map (fun row => row ++ [Pattern.Anything]))
    | (t₀, alts) :: crest =>
        if ((t₀, alts) :: crest).length < alts.alternatives.length then
          match is_exhaustive (matrix.filterMap specialize_row_by_anything) (n - 1) with
          | none => none
          | some rest =>
              some ((alts.alternatives.filterMap
                      (is_missing alts ((t₀, alts) :: crest))).flatMap
                (fun last_option => rest.map (fun row => row ++ [last_option])))
        else
          is_exhaustive_alts alts.alternatives alts matrix n
            (exists_ctorLast_of_collect_ne_nil (by rw [hc]; exact List.cons_ne_nil _ _))
termination_by (matSize matrix, 1, n)
decreasing_by
  · apply lex3
    have h1 := matSize_filterMap_anything_le matrix
    rcases Nat.lt_or_ge (matSize (matrix.filterMap specialize_row_by_anything))
        (matSize matrix) with h2 | h2
    · exact Or.inl h2
    · exact Or.inr ⟨Nat.le_antisymm h1 h2, Or.inr ⟨rfl, by omega⟩⟩
  · apply lex3
    have h1 := matSize_filterMap_anything_le matrix
    rcases Nat.lt_or_ge (matSize (matrix.filterMap specialize_row_by_anything))
        (matSize matrix) with h2 | h2
    · exact Or.inl h2
    · exact Or.inr ⟨Nat.le_antisymm h1 h2, Or.inr ⟨rfl, by omega⟩⟩
  · apply lex3
    exact Or.inr ⟨rfl, Or.inl (by omega)⟩

/-- The `flat_map is_alt_exhaustive` loop of `is_exhaustive`'s complete
branch: specialize by each alternative in order, recurse, and rewrap the
recursive witnesses with `recover_ctor`. -/
def is_exhaustive_alts (cs : List Ctor) (alts : Union) (matrix : PatternMatrix)
    (n : Nat) (hex : ∃ r ∈ matrix, isCtorLast r) : Option PatternMatrix :=
  match cs with
  | [] => some []
  | c :: cs' =>
      match hs : specialize_matrix (specialize_row_by_ctor c.tag_id c.arity) matrix with
      | none => none
      | some new_matrix =>
          match is_exhaustive new_matrix (c.arity + n - 1) with
          | none => none
          | some rest =>
              match is_exhaustive_alts cs' alts matrix n hex with
              | none => none
              | some acc =>
                  some (rest.map (recover_ctor alts c.tag_id c.arity) ++ acc)
termination_by (matSize matrix, 0, cs.length)
decreasing_by
  · apply lex3
    exact Or.inl (matSize_specialize_matrix_lt
      (fun r r' hk => spec_ctor_keep_le hk)
      (fun r r' hcl hk => spec_ctor_keep_lt_of_ctorLast hcl hk) hs hex)
  · apply lex3
    exact Or.inr ⟨rfl, Or.inr ⟨rfl, by simp only [List.length_cons]; omega⟩⟩

end

/-! ### The usefulness recursion -/

mutual

/-- `is_useful`: can `vector` match a value that no row of `old_matrix`
matches?  `none` models an `internal_error!`/`panic!` run.  Each step
pops the last pattern of `vector` and specializes matrix and vector in
tandem, exactly as the source's ping-pong loop. -/
def is_useful (old_matrix : PatternMatrix) (vector : Row) : Option Bool :=
  if old_matrix.isEmpty then some true
  else
    match hv : vector.getLast? with
    | none => some false
    | some (.Ctor _ id args) =>
        match hs : specialize_row_by_ctor2 id args.length old_matrix with
        | none => none
        | some m' => is_useful m' (vector.dropLast ++ args)
    | some (.List arity args) =>
        match hs : specialize_row_by_list arity old_matrix with
        | none => none
        | some m' => is_useful m' (vector.dropLast ++ args)
    | some .Anything =>
        match hcp : is_complete old_matrix with
        | .No => is_useful (old_matrix.filterMap specialize_row_by_anything) vector.dropLast
        | .Yes alternatives =>
            is_useful_alts alternatives old_matrix vector.dropLast
              (exists_ctorLast_of_complete_yes hcp)
    | some (.Literal lit) =>
        match hs : specialize_matrix (specialize_row_by_literal_row lit) old_matrix with
        | none => none
        | some m' => is_useful m' vector.dropLast
termination_by (matSize old_matrix + patSizeList vector, vector.length, 0)
decreasing_by
  · apply lex3
    apply Or.inl
    have h1 := matSize_specialize_matrix_le (fun r r' hk => spec_ctor2_keep_le hk) hs
    have h2 := patSizeList_of_getLast? vector _ hv
    rw [patSizeList_append]
    simp only [patSize] at h2
    omega
  · apply lex3
    apply Or.inl
    have h1 := matSize_specialize_matrix_le (fun r r' hk => spec_list_keep_le hk) hs
    have h2 := patSizeList_of_getLast? vector _ hv
    rw [patSizeList_append]
    simp only [patSize] at h2
    omega
  · apply lex3
    have h1 := matSize_filterMap_anything_le old_matrix
    have h2 := patSizeList_of_getLast? vector _ hv
    have h3 : vector.length = vector.dropLast.length + 1 := by
      conv_lhs => rw [dropLast_concat_getLast? vector _ hv]
      simp
    simp only [patSize] at h2
    rcases Nat.lt_or_ge (matSize (old_matrix.filterMap specialize_row_by_anything))
        (matSize old_matrix) with h4 | h4
    · exact Or.inl (by omega)
    · exact Or.inr ⟨by omega, Or.inl (by omega)⟩
  · apply lex3
    have h2 := patSizeList_of_getLast? vector _ hv
    have h3 : vector.length = vector.dropLast.length + 1 := by
      conv_lhs => rw [dropLast_concat_getLast? vector _ hv]
      simp
    simp only [patSize] at h2
    exact Or.inr ⟨by omega, Or.inl (by omega)⟩
  · apply lex3
    apply Or.inl
    have h1 := matSize_specialize_matrix_le (fun r r' hk => spec_literal_keep_le hk) hs
    have h2 := patSizeList_of_getLast? vector _ hv
    simp only [patSize] at h2
    omega

/-- The `Complete::Yes` loop of `is_useful`'s `Anything` arm: try each
alternative in order, short-circuiting on the first useful one. -/
def is_useful_alts (cs : List Ctor) (m : PatternMatrix) (rest : Row)
    (hex : ∃ r ∈ m, isCtorLast r) : Option Bool :=
  match cs with
  | [] => some false
  | c :: cs' =>
      match hs : specialize_row_by_ctor2 c.tag_id c.arity m with
      | none => none
      | some m' =>
          match is_useful m' (rest ++ List.replicate c.arity Pattern.Anything) with
          | none => none
          | some true => some true
          | some false => is_useful_alts cs' m rest hex
termination_by (matSize m + patSizeList rest, rest.length, cs.length)
decreasing_by
  · apply lex3
    apply Or.inl
    have h1 := matSize_specialize_matrix_lt
      (fun r r' hk => spec_ctor2_keep_le hk)
      (fun r r' hcl hk => spec_ctor2_keep_lt_of_ctorLast hcl hk) hs hex
    rw [patSizeList_append, patSizeList_replicate_anything]
    omega
  · apply lex3
    exact Or.inr ⟨rfl, Or.inr ⟨rfl, by simp only [List.length_cons]; omega⟩⟩

end

/-! ### Top-level check -/

/-- `check`: run `is_exhaustive` at width 1 and package the witnesses as
a single `Incomplete` error (collapsing each witness row to its head,
the source's `v.remove(0)`). -/
def check (region : Region) (context : Context) (matrix : PatternMatrix) :
    Option (Except (List Error) Unit) :=
  match is_exhaustive matrix 1 with
  | none => none
  | some bad_patterns =>
      if bad_patterns.isEmpty then some (Except.ok ())
      else
        match bad_patterns.mapM List.head? with
        | none => none
        | some heads => some (Except.error [Error.Incomplete region context heads])

/-! ### Shape of the witness rows -/

mutual

/-- A pattern built without any `List` pattern node. -/
def patNoList : Pattern → Bool
  | .Anything => true
  | .Literal _ => true
  | .Ctor _ _ args => patNoListList args
  | .List _ _ => false

/-- All patterns in the list are `List`-free. -/
def patNoListList : List Pattern → Bool
  | [] => true
  | p :: ps => patNoList p && patNoListList ps

end

theorem patNoListList_append (xs ys : List Pattern) :
    patNoListList (xs ++ ys) = (patNoListList xs && patNoListList ys) := by
  induction xs with
  | nil => simp [patNoListList]
  | cons p ps ih =>
    show (patNoList p && patNoListList (ps ++ ys)) = _
    rw [ih]
    simp [patNoListList, Bool.and_assoc]

theorem patNoListList_replicate_anything (k : Nat) :
    patNoListList (List.replicate k Pattern.Anything) = true := by
  induction k with
  | zero => rfl
  | succ j ih => simpa [List.replicate_succ, patNoListList, patNoList] using ih

theorem patNoListList_take_drop {w : Row} (a : Nat)
    (h : patNoListList w = true) :
    patNoListList (w.take a) = true ∧ patNoListList (w.drop a) = true := by
  have h2 : (patNoListList (w.take a) && patNoListList (w.drop a)) = true := by
    rw [← patNoListList_append, List.take_append_drop]
    exact h
  rw [Bool.and_eq_true] at h2
  exact h2

mutual

/-- Every witness row of `is_exhaustive` has width exactly `n` and
contains no `List` pattern anywhere (witnesses are built from wildcards
and constructors only). -/
theorem is_exhaustive_rows_shape (matrix : PatternMatrix) (n : Nat)
    (rows : PatternMatrix) (h : is_exhaustive matrix n = some rows) :
    ∀ w ∈ rows, w.length = n ∧ patNoListList w = true := by
  unfold is_exhaustive at h
  by_cases hm : matrix.isEmpty
  · rw [if_pos hm] at h
    injection h with h
    subst h
    intro w hw
    simp only [List.mem_singleton] at hw
    subst hw
    exact ⟨List.length_replicate _ _, patNoListList_replicate_anything n⟩
  · rw [if_neg hm] at h
    by_cases h0 : n = 0
    · rw [dif_pos h0] at h
      injection h with h
      subst h
      intro w hw
      simp at hw
    · rw [dif_neg h0] at h
      split at h
      · -- collect_ctors = []: wildcard column
        cases hrec : is_exhaustive (matrix.filterMap specialize_row_by_anything) (n - 1) with
        | none => rw [hrec] at h; cases h
        | some rest =>
          rw [hrec] at h
          have hrows : rest.map (fun row => row ++ [Pattern.Anything]) = rows := by
            simpa using h
          subst hrows
          intro w hw
          simp only [List.mem_map] at hw
          obtain ⟨row, hrow, hw⟩ := hw
          subst hw
          obtain ⟨hl, hnl⟩ := is_exhaustive_rows_shape _ _ _ hrec row hrow
          constructor
          · simp only [List.length_append, List.length_singleton, hl]
            omega
          · rw [patNoListList_append, hnl]
            simp [patNoListList, patNoList]
      · -- collect_ctors = (t₀, alts) :: crest
        rename_i t₀ alts crest hc
        by_cases hlt : ((t₀, alts) :: crest).length < alts.alternatives.length
        · -- partial coverage: Cartesian product with the missing alternatives
          rw [if_pos hlt] at h
          cases hrec : is_exhaustive (matrix.filterMap specialize_row_by_anything) (n - 1) with
          | none => rw [hrec] at h; cases h
          | some rest =>
            rw [hrec] at h
            injection h with h
            subst h
            intro w hw
            simp only [List.mem_flatMap, List.mem_map] at hw
            obtain ⟨lo, hlo, row, hrow, hw⟩ := hw
            subst hw
            obtain ⟨hl, hnl⟩ := is_exhaustive_rows_shape _ _ _ hrec row hrow
            have hlo' : patNoList lo = true := by
              simp only [List.mem_filterMap] at hlo
              obtain ⟨c, hcmem, hmiss⟩ := hlo
              unfold is_missing at hmiss
              by_cases hin : ((t₀, alts) :: crest).any (fun e => e.1 = c.tag_id)
              · rw [if_pos hin] at hmiss; cases hmiss
              · rw [if_neg hin] at hmiss
                injection hmiss with hmiss
                subst hmiss
                simp [patNoList, patNoListList_replicate_anything]
            constructor
            · simp only [List.length_append, List.length_singleton, hl]
              omega
            · rw [patNoListList_append, hnl]
              simp [patNoListList, hlo']
        · -- complete coverage
          rw [if_neg hlt] at h
          exact is_exhaustive_alts_rows_shape _ _ _ _ _ _ h0 h
termination_by (matSize matrix, 1, n)
decreasing_by
  · apply lex3
    have h1 := matSize_filterMap_anything_le matrix
    rcases Nat.lt_or_ge (matSize (matrix.filterMap specialize_row_by_anything))
        (matSize matrix) with h2 | h2
    · exact Or.inl h2
    · exact Or.inr ⟨Nat.le_antisymm h1 h2, Or.inr ⟨rfl, by omega⟩⟩
  · apply lex3
    have h1 := matSize_filterMap_anything_le matrix
    rcases Nat.lt_or_ge (matSize (matrix.filterMap specialize_row_by_anything))
        (matSize matrix) with h2 | h2
    · exact Or.inl h2
    · exact Or.inr ⟨Nat.le_antisymm h1 h2, Or.inr ⟨rfl, by omega⟩⟩
  · apply lex3
    exact Or.inr ⟨rfl, Or.inl (by omega)⟩

/-- Witness-shape lemma for the per-alternative loop. -/
theorem is_exhaustive_alts_rows_shape (cs : List Ctor) (alts : Union)
    (matrix : PatternMatrix) (n : Nat) (hex : ∃ r ∈ matrix, isCtorLast r)
    (rows : PatternMatrix) (h0 : n ≠ 0)
    (h : is_exhaustive_alts cs alts matrix n hex = some rows) :
    ∀ w ∈ rows, w.length = n ∧ patNoListList w = true := by
  induction cs generalizing rows with
  | nil =>
    unfold is_exhaustive_alts at h
    injection h with h
    subst h
    intro w hw
    simp at hw
  | cons c cs' ih =>
    unfold is_exhaustive_alts at h
    split at h
    · cases h
    · rename_i new_matrix hs
      split at h
      · cases h
      · rename_i rest hrec
        split at h
        · cases h
        · rename_i acc hacc
          injection h with h
          subst h
          intro w hw
          rw [List.mem_append] at hw
          rcases hw with hw | hw
          · simp only [List.mem_map] at hw
            obtain ⟨row, hrow, hw⟩ := hw
            subst hw
            obtain ⟨hl, hnl⟩ := is_exhaustive_rows_shape _ _ _ hrec row hrow
            obtain ⟨hnt, hnd⟩ := patNoListList_take_drop c.arity hnl
            unfold recover_ctor
            constructor
            · simp only [List.length_append, List.length_singleton, List.length_drop, hl]
              omega
            · rw [patNoListList_append, hnd]
              simp [patNoListList, patNoList, hnt]
          · exact ih _ hacc w hw
termination_by (matSize matrix, 0, 0)
decreasing_by
  apply lex3
  exact Or.inl (matSize_specialize_matrix_lt
    (fun r r' hk => spec_ctor_keep_le hk)
    (fun r r' hcl hk => spec_ctor_keep_lt_of_ctorLast hcl hk)
    (by assumption) hex)

end

/-! ### A matching semantics for witness validity

Patterns denote sets of runtime values; a witness row returned by
`is_exhaustive` should denote at least one value vector that no matrix
row matches ("the witness is useful").  Values are untyped trees. -/

/-- Runtime values. -/
inductive Val
  | VCtor (tag : TagId) (args : List Val)
  | VLit (l : Literal)
  | VList (elems : List Val)
deriving Repr

mutual

/-- Does pattern `p` match value `v`?  `Ctor` patterns match on the tag
and argument-wise; `List` patterns match `VList`s of admissible length,
the slice gap being skipped. -/
def matchesPat : Pattern → Val → Bool
  | .Anything, _ => true
  | .Literal l, .VLit l2 => l = l2
  | .Literal _, .VCtor _ _ => false
  | .Literal _, .VList _ => false
  | .Ctor _ t args, .VCtor t2 vargs => t = t2 && matchesList args vargs
  | .Ctor _ _ _, .VLit _ => false
  | .Ctor _ _ _, .VList _ => false
  | .List (.Exact n) args, .VList elems =>
      decide (elems.length = n) && matchesList args elems
  | .List (.Slice b a) args, .VList elems =>
      decide (b + a ≤ elems.length) &&
        matchesList args (elems.take b ++ elems.drop (elems.length - a))
  | .List _ _, .VCtor _ _ => false
  | .List _ _, .VLit _ => false

/-- Pointwise matching of a pattern row against a value vector (false on
length mismatch). -/
def matchesList : List Pattern → List Val → Bool
  | [], [] => true
  | p :: ps, v :: vs => matchesPat p v && matchesList ps vs
  | [], _ :: _ => false
  | _ :: _, [] => false

end

/-- A default value used to instantiate wildcard positions. -/
def someVal : Val := Val.VLit (Literal.Int 0)

theorem matchesList_length {ps : List Pattern} {vs : List Val}
    (h : matchesList ps vs = true) : ps.length = vs.length := by
  induction ps generalizing vs with
  | nil => cases vs with
    | nil => rfl
    | cons v vs' => simp [matchesList] at h
  | cons p ps' ih =>
    cases vs with
    | nil => simp [matchesList] at h
    | cons v vs' =>
      simp only [matchesList, Bool.and_eq_true] at h
      simp [ih h.2]

theorem matchesList_nil_cons {v : Val} {vs : List Val} :
    matchesList [] (v :: vs) = false := rfl

theorem matchesList_cons_nil {p : Pattern} {ps : List Pattern} :
    matchesList (p :: ps) [] = false := rfl

/-- Concat form: matching `xs ++ [p]` against `ys ++ [v]` splits. -/
theorem matchesList_concat (xs : List Pattern) (ys : List Val) (p : Pattern) (v : Val) :
    matchesList (xs ++ [p]) (ys ++ [v]) = (matchesList xs ys && matchesPat p v) := by
  induction xs generalizing ys with
  | nil =>
    cases ys with
    | nil => simp [matchesList, Bool.and_comm]
    | cons y ys' =>
      have : matchesList [] (ys' ++ [v]) = false := by
        cases ys' <;> rfl
      simp [matchesList, this]
  | cons x xs' ih =>
    cases ys with
    | nil =>
      have : matchesList (xs' ++ [p]) [] = false := by
        cases xs' <;> rfl
      simp [matchesList, this]
    | cons y ys' =>
      simp [matchesList, ih, Bool.and_assoc]

/-- Splitting an aligned append (equal first-part lengths). -/
theorem matchesList_append_split (xs : List Pattern) (us : List Val)
    (ys : List Pattern) (vs : List Val) (hlen : xs.length = us.length) :
    matchesList (xs ++ ys) (us ++ vs) = (matchesList xs us && matchesList ys vs) := by
  induction xs generalizing us with
  | nil =>
    cases us with
    | nil => simp [matchesList]
    | cons u us' => simp at hlen
  | cons x xs' ih =>
    cases us with
    | nil => simp at hlen
    | cons u us' =>
      simp only [List.length_cons, Nat.succ.injEq] at hlen
      simp [matchesList, ih us' hlen, Bool.and_assoc]

theorem matchesList_replicate_anything (k : Nat) (vs : List Val) :
    matchesList (List.replicate k Pattern.Anything) vs = decide (vs.length = k) := by
  induction k generalizing vs with
  | zero =>
    cases vs with
    | nil => simp [matchesList]
    | cons v vs' => simp [List.replicate, matchesList]
  | succ j ih =>
    cases vs with
    | nil => simp [List.replicate_succ, matchesList]
    | cons v vs' =>
      simp [List.replicate_succ, matchesList, matchesPat, ih]

/-! ### Keys of `collect_ctors` -/

/-- `insertCtor` always yields a non-empty map. -/
theorem insertCtor_ne_nil (acc : List (TagId × Union)) (id : TagId) (u : Union) :
    insertCtor acc id u ≠ [] := by
  unfold insertCtor
  by_cases hany : acc.any (fun e => e.1 = id)
  · rw [if_pos hany]
    cases acc with
    | nil => simp at hany
    | cons e es => simp
  · rw [if_neg hany]
    simp

/-- `insertCtor` makes its key present. -/
theorem insertCtor_key_self (acc : List (TagId × Union)) (id : TagId) (u : Union) :
    (insertCtor acc id u).any (fun e => e.1 = id) = true := by
  unfold insertCtor
  by_cases hany : acc.any (fun e => e.1 = id)
  · rw [if_pos hany]
    rw [List.any_eq_true] at hany ⊢
    obtain ⟨e, he, hkey⟩ := hany
    refine ⟨(id, u), List.mem_map.mpr ⟨e, he, ?_⟩, by simp⟩
    simp only [decide_eq_true_eq] at hkey
    rw [if_pos hkey]
  · rw [if_neg hany]
    simp

/-- `insertCtor` preserves presence of any key. -/
theorem insertCtor_key_mono (acc : List (TagId × Union)) (id : TagId) (u : Union)
    (t : TagId) (h : acc.any (fun e => e.1 = t) = true) :
    (insertCtor acc id u).any (fun e => e.1 = t) = true := by
  unfold insertCtor
  rw [List.any_eq_true] at h
  obtain ⟨e, he, hkey⟩ := h
  simp only [decide_eq_true_eq] at hkey
  by_cases hany : acc.any (fun e => e.1 = id)
  · rw [if_pos hany]
    rw [List.any_eq_true]
    by_cases hed : e.1 = id
    · refine ⟨(id, u), List.mem_map.mpr ⟨e, he, by rw [if_pos hed]⟩, by simp [← hkey, hed]⟩
    · refine ⟨e, List.mem_map.mpr ⟨e, he, by rw [if_neg hed]⟩, by simp [hkey]⟩
  · rw [if_neg hany]
    rw [List.any_eq_true]
    exact ⟨e, List.mem_append.mpr (Or.inl he), by simp [hkey]⟩

/-- `collect_ctors_go` preserves a non-empty accumulator. -/
theorem collect_ctors_go_ne_nil {acc : List (TagId × Union)} (hacc : acc ≠ [])
    (m : PatternMatrix) : collect_ctors_go acc m ≠ [] := by
  induction m generalizing acc with
  | nil => exact hacc
  | cons r rs ih =>
    unfold collect_ctors_go
    cases hl : r.getLast? with
    | none => exact ih hacc
    | some p =>
      cases p with
      | Ctor u id args => exact ih (insertCtor_ne_nil _ _ _)
      | Anything => exact ih hacc
      | Literal l => exact ih hacc
      | List ar args => exact ih hacc

/-- `collect_ctors_go` preserves key presence. -/
theorem collect_ctors_go_key_mono {acc : List (TagId × Union)} {t : TagId}
    (hacc : acc.any (fun e => e.1 = t) = true) (m : PatternMatrix) :
    (collect_ctors_go acc m).any (fun e => e.1 = t) = true := by
  induction m generalizing acc with
  | nil => exact hacc
  | cons r rs ih =>
    unfold collect_ctors_go
    cases hl : r.getLast? with
    | none => exact ih hacc
    | some p =>
      cases p with
      | Ctor u id args => exact ih (insertCtor_key_mono _ _ _ _ hacc)
      | Anything => exact ih hacc
      | Literal l => exact ih hacc
      | List ar args => exact ih hacc

/-- Every constructor tag in the last column is a key of
`collect_ctors`. -/
theorem collect_ctors_key_of_mem {m : PatternMatrix} {r : Row}
    {u : Union} {t : TagId} {args : List Pattern}
    (hr : r ∈ m) (hl : r.getLast? = some (Pattern.Ctor u t args)) :
    (collect_ctors m).any (fun e => e.1 = t) = true := by
  suffices hgen : ∀ acc, (collect_ctors_go acc m).any (fun e => e.1 = t) = true from
    hgen []
  induction m with
  | nil => simp at hr
  | cons r₀ rest ih =>
    intro acc
    rcases List.mem_cons.mp hr with hr₀ | hr₀
    · subst hr₀
      unfold collect_ctors_go
      rw [hl]
      exact collect_ctors_go_key_mono (insertCtor_key_self acc t u) rest
    · unfold collect_ctors_go
      cases hl₀ : r₀.getLast? with
      | none => exact ih hr₀ _
      | some p =>
        cases p with
        | Ctor u0 id0 args0 => exact ih hr₀ _
        | Anything => exact ih hr₀ _
        | Literal l => exact ih hr₀ _
        | List ar args0 => exact ih hr₀ _

/-- When the last column has no constructors, `collect_ctors` is empty,
so a `collect_ctors = []` hypothesis excludes constructor-last rows. -/
theorem no_ctorLast_of_collect_nil {m : PatternMatrix}
    (h : collect_ctors m = []) {r : Row} (hr : r ∈ m) : ¬ isCtorLast r := by
  rintro ⟨u, t, args, hl⟩
  have := collect_ctors_key_of_mem hr hl
  rw [h] at this
  simp at this

/-! ### Membership facts for `specialize_matrix` -/

theorem specialize_matrix_no_abort {f : Row → SpecResult} :
    ∀ {m m'}, specialize_matrix f m = some m' → ∀ r ∈ m, f r ≠ .Abort := by
  intro m
  induction m with
  | nil => intro m' h r hr; simp at hr
  | cons r₀ rs ih =>
    intro m' h r hr
    unfold specialize_matrix at h
    rcases List.mem_cons.mp hr with hr' | hr'
    · subst hr'
      cases hf : f r with
      | Abort => rw [hf] at h; cases h
      | Drop => simp [hf]
      | Keep r' => simp [hf]
    · cases hf : f r₀ with
      | Abort => rw [hf] at h; cases h
      | Drop =>
        rw [hf] at h
        exact ih h r hr'
      | Keep r' =>
        rw [hf] at h
        cases hrs : specialize_matrix f rs with
        | none => rw [hrs] at h; cases h
        | some ms => exact ih hrs r hr'

theorem specialize_matrix_mem {f : Row → SpecResult} :
    ∀ {m m'}, specialize_matrix f m = some m' →
      ∀ r ∈ m, ∀ r', f r = .Keep r' → r' ∈ m' := by
  intro m
  induction m with
  | nil => intro m' h r hr; simp at hr
  | cons r₀ rs ih =>
    intro m' h r hr r' hf
    unfold specialize_matrix at h
    rcases List.mem_cons.mp hr with hr' | hr'
    · subst hr'
      rw [hf] at h
      cases hrs : specialize_matrix f rs with
      | none => rw [hrs] at h; cases h
      | some ms =>
        rw [hrs] at h
        have h2 : r' :: ms = m' := by simpa using h
        subst h2
        exact List.mem_cons_self _ _
    · cases hf₀ : f r₀ with
      | Abort => rw [hf₀] at h; cases h
      | Drop =>
        rw [hf₀] at h
        exact ih h r hr' r' hf
      | Keep r₀' =>
        rw [hf₀] at h
        cases hrs : specialize_matrix f rs with
        | none => rw [hrs] at h; cases h
        | some ms =>
          rw [hrs] at h
          have h2 : r₀' :: ms = m' := by simpa using h
          subst h2
          exact List.mem_cons_of_mem _ (ih hrs r hr' r' hf)

/-- Wildcard-specialized tails are in the filterMap image. -/
theorem filterMap_anything_mem {m : PatternMatrix} {r : Row} {r' : Row}
    (hr : r ∈ m) (hf : specialize_row_by_anything r = some r') :
    r' ∈ m.filterMap specialize_row_by_anything :=
  List.mem_filterMap.mpr ⟨r, hr, hf⟩

theorem matchesList_nil_concat {ys : List Val} {v : Val} :
    matchesList [] (ys ++ [v]) = false := by
  cases ys <;> rfl

/-- To avoid a row it suffices to refute, for its split form, one of the
two aligned parts. -/
theorem avoid_concat_of_parts {r : Row} {vs' : List Val} {vlast : Val}
    (hcase : ∀ rs q, r = rs ++ [q] →
      (matchesList rs vs' = false ∨ matchesPat q vlast = false)) :
    matchesList r (vs' ++ [vlast]) = false := by
  rcases row_decomp r with hr | ⟨rs, q, hr⟩
  · subst hr
    exact matchesList_nil_concat
  · subst hr
    rw [matchesList_concat]
    rcases hcase rs q rfl with h | h <;> simp [h]

/-! ### Semantic witness validity -/

mutual

/-- Every witness row returned by `is_exhaustive` is semantically
useful: some value vector matches it while no matrix row matches that
vector.  (This holds for arbitrary, even ill-formed, matrices.) -/
theorem is_exhaustive_witness_semantic (matrix : PatternMatrix) (n : Nat)
    (rows : PatternMatrix) (h : is_exhaustive matrix n = some rows) :
    ∀ w ∈ rows, ∃ vs : List Val, matchesList w vs = true ∧
      ∀ r ∈ matrix, matchesList r vs = false := by
  unfold is_exhaustive at h
  by_cases hm : matrix.isEmpty
  · rw [if_pos hm] at h
    injection h with h
    subst h
    intro w hw
    simp only [List.mem_singleton] at hw
    subst hw
    refine ⟨List.replicate n someVal, ?_, ?_⟩
    · rw [matchesList_replicate_anything]
      simp
    · intro r hr
      rw [List.isEmpty_iff] at hm
      subst hm
      simp at hr
  · rw [if_neg hm] at h
    by_cases h0 : n = 0
    · rw [dif_pos h0] at h
      injection h with h
      subst h
      intro w hw
      simp at hw
    · rw [dif_neg h0] at h
      split at h
      · -- no constructors in the last column
        rename_i hcnil
        cases hrec : is_exhaustive (matrix.filterMap specialize_row_by_anything) (n - 1) with
        | none => rw [hrec] at h; cases h
        | some rest =>
          rw [hrec] at h
          have hrows : rest.map (fun row => row ++ [Pattern.Anything]) = rows := by
            simpa using h
          subst hrows
          intro w hw
          simp only [List.mem_map] at hw
          obtain ⟨row, hrow, hw⟩ := hw
          subst hw
          obtain ⟨vs', hvt, hva⟩ := is_exhaustive_witness_semantic _ _ _ hrec row hrow
          refine ⟨vs' ++ [Val.VCtor ⟨0⟩ []], ?_, ?_⟩
          · rw [matchesList_concat, hvt]
            rfl
          · intro r hr
            apply avoid_concat_of_parts
            intro rs q hrq
            subst hrq
            cases q with
            | Anything =>
              exact Or.inl (hva rs (filterMap_anything_mem hr (spec_anything_concat_any rs)))
            | Literal l => exact Or.inr rfl
            | List ar args => exact Or.inr (by cases ar <;> rfl)
            | Ctor u t args =>
              exact absurd ⟨u, t, args, by rw [List.getLast?_concat]⟩
                (no_ctorLast_of_collect_nil hcnil hr)
      · -- constructors present
        rename_i t₀ alts crest hc
        by_cases hlt : ((t₀, alts) :: crest).length < alts.alternatives.length
        · -- partial coverage
          rw [if_pos hlt] at h
          cases hrec : is_exhaustive (matrix.filterMap specialize_row_by_anything) (n - 1) with
          | none => rw [hrec] at h; cases h
          | some rest =>
            rw [hrec] at h
            injection h with h
            subst h
            intro w hw
            simp only [List.mem_flatMap, List.mem_map] at hw
            obtain ⟨lo, hlo, row, hrow, hw⟩ := hw
            subst hw
            simp only [List.mem_filterMap] at hlo
            obtain ⟨c, hcmem, hmiss⟩ := hlo
            unfold is_missing at hmiss
            by_cases hin : ((t₀, alts) :: crest).any (fun e => e.1 = c.tag_id)
            · rw [if_pos hin] at hmiss; cases hmiss
            · rw [if_neg hin] at hmiss
              injection hmiss with hmiss
              subst hmiss
              obtain ⟨vs', hvt, hva⟩ := is_exhaustive_witness_semantic _ _ _ hrec row hrow
              refine ⟨vs' ++ [Val.VCtor c.tag_id (List.replicate c.arity someVal)], ?_, ?_⟩
              · rw [matchesList_concat, hvt]
                simp [matchesPat, matchesList_replicate_anything]
              · intro r hr
                apply avoid_concat_of_parts
                intro rs q hrq
                subst hrq
                cases q with
                | Anything =>
                  exact Or.inl (hva rs (filterMap_anything_mem hr (spec_anything_concat_any rs)))
                | Literal l => exact Or.inr rfl
                | List ar args => exact Or.inr (by cases ar <;> rfl)
                | Ctor u' t' rargs =>
                  apply Or.inr
                  have ht' : (collect_ctors matrix).any (fun e => e.1 = t') = true :=
                    collect_ctors_key_of_mem hr (by rw [List.getLast?_concat])
                  rw [hc] at ht'
                  have hne : (t' = c.tag_id) = False := by
                    simp only [eq_iff_iff, iff_false]
                    intro he
                    rw [he] at ht'
                    exact hin ht'
                  simp [matchesPat, hne]
        · -- complete coverage
          rw [if_neg hlt] at h
          exact is_exhaustive_alts_witness_semantic _ _ _ _ _ _ h0 h
termination_by (matSize matrix, 1, n)
decreasing_by
  · apply lex3
    have h1 := matSize_filterMap_anything_le matrix
    rcases Nat.lt_or_ge (matSize (matrix.filterMap specialize_row_by_anything))
        (matSize matrix) with h2 | h2
    · exact Or.inl h2
    · exact Or.inr ⟨Nat.le_antisymm h1 h2, Or.inr ⟨rfl, by omega⟩⟩
  · apply lex3
    have h1 := matSize_filterMap_anything_le matrix
    rcases Nat.lt_or_ge (matSize (matrix.filterMap specialize_row_by_anything))
        (matSize matrix) with h2 | h2
    · exact Or.inl h2
    · exact Or.inr ⟨Nat.le_antisymm h1 h2, Or.inr ⟨rfl, by omega⟩⟩
  · apply lex3
    exact Or.inr ⟨rfl, Or.inl (by omega)⟩

/-- Semantic witness validity for the per-alternative loop. -/
theorem is_exhaustive_alts_witness_semantic (cs : List Ctor) (alts : Union)
    (matrix : PatternMatrix) (n : Nat) (hex : ∃ r ∈ matrix, isCtorLast r)
    (rows : PatternMatrix) (h0 : n ≠ 0)
    (h : is_exhaustive_alts cs alts matrix n hex = some rows) :
    ∀ w ∈ rows, ∃ vs : List Val, matchesList w vs = true ∧
      ∀ r ∈ matrix, matchesList r vs = false := by
  induction cs generalizing rows with
  | nil =>
    unfold is_exhaustive_alts at h
    injection h with h
    subst h
    intro w hw
    simp at hw
  | cons c cs' ih =>
    unfold is_exhaustive_alts at h
    split at h
    · cases h
    · rename_i new_matrix hs
      split at h
      · cases h
      · rename_i rest hrec
        split at h
        · cases h
        · rename_i acc hacc
          injection h with h
          subst h
          intro w hw
          rw [List.mem_append] at hw
          rcases hw with hw | hw
          · simp only [List.mem_map] at hw
            obtain ⟨row, hrow, hw⟩ := hw
            subst hw
            obtain ⟨vs', hvt, hva⟩ := is_exhaustive_witness_semantic _ _ _ hrec row hrow
            have hlen : row.length = vs'.length := matchesList_length hvt
            have hrowlen : row.length = c.arity + n - 1 :=
              (is_exhaustive_rows_shape _ _ _ hrec row hrow).1
            have harle : c.arity ≤ vs'.length := by omega
            refine ⟨vs'.drop c.arity ++ [Val.VCtor c.tag_id (vs'.take c.arity)], ?_, ?_⟩
            · unfold recover_ctor
              rw [matchesList_concat]
              have htake : (row.take c.arity).length = (vs'.take c.arity).length := by
                simp [hlen]
              have hsplit := matchesList_append_split (row.take c.arity) (vs'.take c.arity)
                (row.drop c.arity) (vs'.drop c.arity) htake
              rw [List.take_append_drop, List.take_append_drop, hvt] at hsplit
              have hsplit' := hsplit.symm
              rw [Bool.and_eq_true] at hsplit'
              obtain ⟨ht1, ht2⟩ := hsplit'
              rw [ht2]
              simp [matchesPat, ht1]
            · intro r hr
              apply avoid_concat_of_parts
              intro rs q hrq
              subst hrq
              cases q with
              | Literal l =>
                exact absurd (spec_ctor_concat_lit c.tag_id c.arity rs l)
                  (specialize_matrix_no_abort hs _ hr)
              | List ar args =>
                exact absurd (spec_ctor_concat_list c.tag_id c.arity rs ar args)
                  (specialize_matrix_no_abort hs _ hr)
              | Anything =>
                have hk : List.replicate c.arity Pattern.Anything ++ rs ∈ new_matrix :=
                  specialize_matrix_mem hs _ hr _ (spec_ctor_concat_any c.tag_id c.arity rs)
                have hfalse := hva _ hk
                cases hb : matchesList rs (vs'.drop c.arity) with
                | false => exact Or.inl rfl
                | true =>
                  exfalso
                  have hrepl : (List.replicate c.arity Pattern.Anything).length
                      = (vs'.take c.arity).length := by
                    simp [List.length_replicate, List.length_take]
                    omega
                  have hsp := matchesList_append_split
                    (List.replicate c.arity Pattern.Anything) (vs'.take c.arity)
                    rs (vs'.drop c.arity) hrepl
                  rw [List.take_append_drop] at hsp
                  rw [hfalse, hb, matchesList_replicate_anything] at hsp
                  simp [List.length_take] at hsp
                  omega
              | Ctor u' t' rargs =>
                by_cases htag : t' = c.tag_id
                · have hk : rargs ++ rs ∈ new_matrix :=
                    specialize_matrix_mem hs _ hr _
                      (by rw [spec_ctor_concat_ctor, if_pos htag])
                  have hfalse := hva _ hk
                  cases hb : matchesList rs (vs'.drop c.arity) with
                  | false => exact Or.inl rfl
                  | true =>
                    apply Or.inr
                    cases hb2 : matchesPat (Pattern.Ctor u' t' rargs)
                        (Val.VCtor c.tag_id (vs'.take c.arity)) with
                    | false => rfl
                    | true =>
                      exfalso
                      simp only [matchesPat, Bool.and_eq_true, decide_eq_true_eq] at hb2
                      obtain ⟨_, hargs⟩ := hb2
                      have hlenargs : rargs.length = (vs'.take c.arity).length :=
                        matchesList_length hargs
                      have hsp := matchesList_append_split rargs (vs'.take c.arity)
                        rs (vs'.drop c.arity) hlenargs
                      rw [List.take_append_drop, hfalse, hargs, hb] at hsp
                      simp at hsp
                · apply Or.inr
                  have hne : (t' = c.tag_id) = False := by
                    simp [htag]
                  simp [matchesPat, hne]
          · exact ih _ hacc w hw
termination_by (matSize matrix, 0, 0)
decreasing_by
  apply lex3
  exact Or.inl (matSize_specialize_matrix_lt
    (fun r r' hk => spec_ctor_keep_le hk)
    (fun r r' hcl hk => spec_ctor_keep_lt_of_ctorLast hcl hk)
    (by assumption) hex)

end

/-! ### List-arity shape semantics

Modelled from the spec: `Exact(n)` admits exactly the lists of length
`n`; `Slice(before, after)` admits every list of length at least
`before + after`.  Used to compare `covers_arity` against the semantic
coverage relation ("every list shape matched by `other` is also matched
by `self`"). -/

/-- Does a list of length `len` fit the arity? -/
def arity_matches_len (a : ListArity) (len : Nat) : Prop :=
  match a with
  | .Exact n => len = n
  | .Slice numBefore numAfter => numBefore + numAfter ≤ len

/-- Semantic coverage: every length admitted by `b` is admitted by `a`. -/
def sem_covers (a b : ListArity) : Prop :=
  ∀ len, arity_matches_len b len → arity_matches_len a len

/-! ### Collapsing width-1 witness rows to their heads -/

theorem mapM_head_of_width_one :
    ∀ (bad : PatternMatrix), (∀ w ∈ bad, w.length = 1) →
      ∃ heads, bad = heads.map (fun p => [p]) ∧ bad.mapM List.head? = some heads := by
  intro bad
  induction bad with
  | nil => intro _; exact ⟨[], rfl, rfl⟩
  | cons w bad' ih =>
    intro hall
    have hw : w.length = 1 := hall w (List.mem_cons_self _ _)
    obtain ⟨p, hp⟩ : ∃ p, w = [p] := by
      cases w with
      | nil => simp at hw
      | cons p t =>
        cases t with
        | nil => exact ⟨p, rfl⟩
        | cons q t' => simp at hw
    subst hp
    obtain ⟨heads', hmap, hmapM⟩ := ih (fun x hx => hall x (List.mem_cons_of_mem _ hx))
    refine ⟨p :: heads', by simp [hmap], ?_⟩
    rw [List.mapM_cons, hmapM]
    rfl

/-! ### The claims -/

/-- C1, counterexample: the matrix whose single row is the catch-all list
pattern `[[List (Slice 0 0) []]]` is *not* reported exhaustive: it yields
the witness row `[Anything]`, not the empty witness list. -/
theorem C1_counterexample :
    is_exhaustive [[Pattern.List (.Slice 0 0) []]] 1 = some [[Pattern.Anything]] ∧
      ([[Pattern.Anything]] : PatternMatrix) ≠ [] := by
  constructor
  · simp [is_exhaustive, collect_ctors, collect_ctors_go, specialize_row_by_anything,
      List.filterMap, List.getLast?]
  · simp

/-- C1 (corrected): `is_exhaustive([[List (Slice 0 0) []]], 1)` returns
the single witness row `[Anything]` — a `Slice(0,0)` list row is not
treated as a catch-all (only `Anything` rows are) — and no matrix ever
yields a `List(Slice(0,0), [])` witness, because witness rows never
contain a `List` pattern at all. -/
theorem C1_slice_not_catchall :
    (is_exhaustive [[Pattern.List (.Slice 0 0) []]] 1 = some [[Pattern.Anything]]) ∧
    (∀ (matrix : PatternMatrix) (n : Nat) (rows : PatternMatrix) (w : Row),
      is_exhaustive matrix n = some rows → w ∈ rows → patNoListList w = true) ∧
    (∀ (matrix : PatternMatrix) (n : Nat) (rows : PatternMatrix),
      is_exhaustive matrix n = some rows → [Pattern.List (.Slice 0 0) []] ∉ rows) := by
  refine ⟨?_, ?_, ?_⟩
  · simp [is_exhaustive, collect_ctors, collect_ctors_go, specialize_row_by_anything,
      List.filterMap, List.getLast?]
  · intro matrix n rows w h hw
    exact (is_exhaustive_rows_shape matrix n rows h w hw).2
  · intro matrix n rows h hmem
    have := (is_exhaustive_rows_shape matrix n rows h _ hmem).2
    simp [patNoListList, patNoList] at this

/-- C2, counterexample: on the (ragged) matrix
`[[Ctor A [Literal 1]], [Literal 9, Anything]]` the sole witness returned
by `is_exhaustive` is `[Ctor A [Anything]]`, yet `is_useful` on that very
witness returns `false`, not `true`. -/
theorem C2_counterexample :
    is_exhaustive
        [[Pattern.Ctor ⟨[⟨.Tag "A", ⟨0⟩, 1⟩], .Tag⟩ ⟨0⟩ [Pattern.Literal (.Int 1)]],
         [Pattern.Literal (.Int 9), Pattern.Anything]] 1 =
      some [[Pattern.Ctor ⟨[⟨.Tag "A", ⟨0⟩, 1⟩], .Tag⟩ ⟨0⟩ [Pattern.Anything]]] ∧
    is_useful
        [[Pattern.Ctor ⟨[⟨.Tag "A", ⟨0⟩, 1⟩], .Tag⟩ ⟨0⟩ [Pattern.Literal (.Int 1)]],
         [Pattern.Literal (.Int 9), Pattern.Anything]]
        [Pattern.Ctor ⟨[⟨.Tag "A", ⟨0⟩, 1⟩], .Tag⟩ ⟨0⟩ [Pattern.Anything]] = some false := by
  constructor
  · simp [is_exhaustive, is_exhaustive_alts, collect_ctors, collect_ctors_go, insertCtor,
      specialize_row_by_anything, specialize_matrix, specialize_row_by_ctor,
      recover_ctor, is_missing, List.filterMap, List.getLast?]
  · simp [is_useful, is_useful_alts, is_complete, collect_ctors, collect_ctors_go, insertCtor,
      specialize_row_by_ctor2, specialize_matrix, specialize_row_by_ctor2_row,
      specialize_row_by_anything, List.filterMap, List.getLast?]

/-- C2 (corrected): every witness row of `is_exhaustive(M, 1)` is
*semantically* useful against `M` — some value vector matches the witness
row while no row of `M` matches it — although the algorithmic
`is_useful(M, [w])` call may abort or even return `false` on ill-formed
matrices. -/
theorem C2_witness_semantically_useful :
    ∀ (matrix : PatternMatrix) (rows : PatternMatrix) (w : Row),
      is_exhaustive matrix 1 = some rows → w ∈ rows →
        w.length = 1 ∧
        ∃ vs : List Val, matchesList w vs = true ∧
          ∀ r ∈ matrix, matchesList r vs = false := by
  intro matrix rows w h hw
  exact ⟨(is_exhaustive_rows_shape matrix 1 rows h w hw).1,
    is_exhaustive_witness_semantic matrix 1 rows h w hw⟩

/-- C2, witness: the concrete instance at `M = [[Literal 1]]`, whose
witness row is `[Anything]`. -/
theorem C2_witness :
    ([Pattern.Anything] : Row).length = 1 ∧
    ∃ vs : List Val, matchesList [Pattern.Anything] vs = true ∧
      ∀ r ∈ [[Pattern.Literal (Literal.Int 1)]], matchesList r vs = false :=
  C2_witness_semantically_useful [[Pattern.Literal (Literal.Int 1)]]
    [[Pattern.Anything]] [Pattern.Anything]
    (by simp [is_exhaustive, collect_ctors, collect_ctors_go, specialize_row_by_anything,
      List.filterMap, List.getLast?])
    (by simp)

/-- C3 (confirmed): `check` succeeds exactly when `is_exhaustive` at
width 1 returns no witnesses; otherwise it returns a single
`Incomplete(region, context, heads)` error whose non-empty `heads` list
collapses each width-1 witness row to its sole pattern. -/
theorem C3_check_incomplete :
    ∀ (region : Region) (context : Context) (matrix : PatternMatrix),
      (check region context matrix = some (Except.ok ()) ↔
        is_exhaustive matrix 1 = some []) ∧
      (∀ bad, is_exhaustive matrix 1 = some bad → bad ≠ [] →
        ∃ heads, heads ≠ [] ∧ bad = heads.map (fun p => [p]) ∧
          check region context matrix =
            some (Except.error [Error.Incomplete region context heads])) := by
  intro region context matrix
  cases he : is_exhaustive matrix 1 with
  | none =>
    constructor
    · unfold check
      rw [he]
      simp
    · intro bad hbad
      simp at hbad
  | some bad0 =>
    have hck : check region context matrix =
        (if bad0.isEmpty then some (Except.ok ())
         else match bad0.mapM List.head? with
           | none => none
           | some heads => some (Except.error [Error.Incomplete region context heads])) := by
      unfold check
      rw [he]
    cases bad0 with
    | nil =>
      constructor
      · rw [hck]
        simp [he]
      · intro bad hbad hne
        injection hbad with hbad
        exact absurd hbad.symm hne
    | cons w0 bad0' =>
      obtain ⟨heads, hmap, hmapM⟩ := mapM_head_of_width_one (w0 :: bad0')
        (fun w hw => (is_exhaustive_rows_shape _ _ _ he w hw).1)
      have hck2 : check region context matrix =
          some (Except.error [Error.Incomplete region context heads]) := by
        rw [hck, if_neg (by simp), hmapM]
      constructor
      · rw [hck2]
        simp
      · intro bad hbad hne
        injection hbad with hbad
        subst hbad
        refine ⟨heads, ?_, hmap, hck2⟩
        intro hh
        subst hh
        simp at hmap

/-- C4 (confirmed): on a matrix whose rows all have width `n`, every row
returned by `is_exhaustive(matrix, n)` has width exactly `n` (the width
invariant in fact holds for arbitrary matrices). -/
theorem C4_rows_width :
    ∀ (matrix : PatternMatrix) (n : Nat),
      (∀ r ∈ matrix, r.length = n) →
      ∀ rows, is_exhaustive matrix n = some rows →
      ∀ w ∈ rows, w.length = n := by
  intro matrix n _ rows h w hw
  exact (is_exhaustive_rows_shape matrix n rows h w hw).1

/-- C4, witness: the width-1 instance at `M = [[Literal 1]]`. -/
theorem C4_witness : ([Pattern.Anything] : Row).length = 1 :=
  C4_rows_width [[Pattern.Literal (Literal.Int 1)]] 1
    (by intro r hr; simp at hr; subst hr; rfl)
    [[Pattern.Anything]]
    (by simp [is_exhaustive, collect_ctors, collect_ctors_go, specialize_row_by_anything,
      List.filterMap, List.getLast?])
    [Pattern.Anything] (by simp)

/-- C5, counterexample: `Exact(0).covers_arity(Slice(0,0))` is `true`,
yet an exact-length pattern can never semantically cover a slice — the
slice `[..]` also matches lists of length 1. -/
theorem C5_counterexample :
    ListArity.covers_arity (.Exact 0) (.Slice 0 0) = true ∧
      ¬ sem_covers (.Exact 0) (.Slice 0 0) := by
  constructor
  · rfl
  · intro h
    have := h 1 (by simp [arity_matches_len])
    simp [arity_matches_len] at this

/-- C5 (corrected): `covers_arity` agrees with semantic coverage in the
`Exact/Exact`, `Slice/Exact` and `Slice/Slice` cases, but in the
`Exact/Slice` case it returns `n = before + after` even though an
`Exact` never semantically covers a `Slice` (a slice admits unboundedly
many lengths). -/
theorem C5_covers_arity_semantics :
    (∀ n m, ((ListArity.Exact n).covers_arity (.Exact m) = true ↔
      sem_covers (.Exact n) (.Exact m))) ∧
    (∀ l r m, ((ListArity.Slice l r).covers_arity (.Exact m) = true ↔
      sem_covers (.Slice l r) (.Exact m))) ∧
    (∀ l r bl br, ((ListArity.Slice l r).covers_arity (.Slice bl br) = true ↔
      sem_covers (.Slice l r) (.Slice bl br))) ∧
    (∀ n bl br, ((ListArity.Exact n).covers_arity (.Slice bl br) = decide (n = bl + br)) ∧
      ¬ sem_covers (.Exact n) (.Slice bl br)) := by
  refine ⟨?_, ?_, ?_, ?_⟩
  · intro n m
    simp only [ListArity.covers_arity, sem_covers, arity_matches_len, decide_eq_true_eq]
    constructor
    · intro h len hlen; omega
    · intro h; have := h m rfl; omega
  · intro l r m
    simp only [ListArity.covers_arity, sem_covers, arity_matches_len, decide_eq_true_eq]
    constructor
    · intro h len hlen; omega
    · intro h; have := h m rfl; omega
  · intro l r bl br
    simp only [ListArity.covers_arity, sem_covers, arity_matches_len, decide_eq_true_eq]
    constructor
    · intro h len hlen; omega
    · intro h; have := h (bl + br) (by omega); omega
  · intro n bl br
    refine ⟨rfl, ?_⟩
    intro h
    have := h (bl + br + n + 1) (by simp [arity_matches_len]; omega)
    simp [arity_matches_len] at this
    omega

/-- C6, counterexample: `covers_arity` is not transitive:
`Exact 0` covers `Slice(0,0)`, `Slice(0,0)` covers `Exact 1`, but
`Exact 0` does not cover `Exact 1`. -/
theorem C6_counterexample :
    ListArity.covers_arity (.Exact 0) (.Slice 0 0) = true ∧
    ListArity.covers_arity (.Slice 0 0) (.Exact 1) = true ∧
    ListArity.covers_arity (.Exact 0) (.Exact 1) = false := by
  refine ⟨rfl, rfl, rfl⟩

/-- C6 (corrected): transitivity of `covers_arity` holds whenever the
first arity is a `Slice` or the middle arity is an `Exact`; it can fail
only with an `Exact` first arity over a `Slice` middle arity. -/
theorem C6_covers_arity_trans_partial :
    ∀ a b c : ListArity,
      ((∃ l r, a = ListArity.Slice l r) ∨ (∃ m, b = ListArity.Exact m)) →
      a.covers_arity b = true → b.covers_arity c = true → a.covers_arity c = true := by
  intro a b c hset h1 h2
  cases a <;> cases b <;> cases c <;>
    simp only [ListArity.covers_arity, decide_eq_true_eq] at h1 h2 ⊢ <;>
    try omega
  all_goals
    rcases hset with ⟨l, r, hcon⟩ | ⟨m, hcon⟩ <;> cases hcon

/-- C6, witness: a concrete transitive instance with a `Slice` first
arity. -/
theorem C6_witness : ListArity.covers_arity (.Slice 0 0) (.Exact 3) = true :=
  C6_covers_arity_trans_partial (.Slice 0 0) (.Slice 1 0) (.Exact 3)
    (Or.inl ⟨0, 0, rfl⟩) (by decide) (by decide)

/-- C7 (confirmed): against the matrix `[[List (Exact 0) []]]` the
candidate row `[List (Slice 0 0) []]` is not useful: `is_useful` returns
`false` (so in the two-branch match the empty-slice branch is redundant
after the exact-empty branch). -/
theorem C7_exact_covers_empty_slice :
    is_useful [[Pattern.List (.Exact 0) []]] [Pattern.List (.Slice 0 0) []] =
      some false := by
  simp [is_useful, specialize_row_by_list, specialize_matrix, specialize_row_by_list_row,
    List.getLast?, ListArity.covers_arity, ListArity.min_len]

/-- C8 (confirmed): `specialize_row_by_ctor (tag_id, arity)` maps a row
ending in `Ctor(_, id, args)` with `id = tag_id` to `args ++ rest`, drops
rows ending in a different constructor, and maps a row ending in
`Anything` to `arity` fresh wildcards followed by `rest`. -/
theorem C8_specialize_row_by_ctor_spec :
    ∀ (t : TagId) (a : Nat) (rs : Row) (u : Union) (id : TagId) (cargs : List Pattern),
      (specialize_row_by_ctor t a (rs ++ [Pattern.Ctor u id cargs]) =
        if id = t then .Keep (cargs ++ rs) else .Drop) ∧
      (specialize_row_by_ctor t a (rs ++ [Pattern.Anything]) =
        .Keep (List.replicate a .Anything ++ rs)) := by
  intro t a rs u id cargs
  exact ⟨spec_ctor_concat_ctor t a rs u id cargs, spec_ctor_concat_any t a rs⟩

/-- C9 (confirmed): against an empty matrix every candidate vector —
including non-empty ones — is useful: `is_useful([], v) = true`. -/
theorem C9_empty_matrix_always_useful :
    ∀ v : Row, is_useful [] v = some true := by
  intro v
  simp [is_useful]

/-- C10, counterexample: on the row `[Anything, Ctor A [Literal 1]]` the
two constructor kernels produce different rows: `specialize_row_by_ctor`
yields `[Literal 1, Anything]` (arguments first) while
`specialize_row_by_ctor2` appends `[Anything, Literal 1]` (arguments
last). -/
theorem C10_counterexample :
    specialize_row_by_ctor ⟨0⟩ 1
        [Pattern.Anything,
         Pattern.Ctor ⟨[⟨.Tag "A", ⟨0⟩, 1⟩], .Tag⟩ ⟨0⟩ [Pattern.Literal (.Int 1)]] =
      .Keep [Pattern.Literal (.Int 1), Pattern.Anything] ∧
    specialize_row_by_ctor2 ⟨0⟩ 1
        [[Pattern.Anything,
          Pattern.Ctor ⟨[⟨.Tag "A", ⟨0⟩, 1⟩], .Tag⟩ ⟨0⟩ [Pattern.Literal (.Int 1)]]] =
      some [[Pattern.Anything, Pattern.Literal (.Int 1)]] ∧
    ([Pattern.Literal (.Int 1), Pattern.Anything] : Row) ≠
      [Pattern.Anything, Pattern.Literal (.Int 1)] := by
  refine ⟨rfl, rfl, by simp⟩

/-- C10 (corrected): the two constructor-specialization kernels agree on
which rows are kept or dropped, but place the constructor's arguments on
opposite sides of the remaining columns: `specialize_row_by_ctor` yields
`args ++ rest` while `specialize_row_by_ctor2` appends `rest ++ args`;
the kept rows are therefore permutations of each other (equal whenever
either block is empty), not equal in general. -/
theorem C10_kernels_agree_up_to_block_order :
    ∀ (t : TagId) (a : Nat) (rs : Row) (u : Union) (id : TagId) (cargs : List Pattern),
      (specialize_row_by_ctor t a (rs ++ [Pattern.Ctor u id cargs]) =
        if id = t then .Keep (cargs ++ rs) else .Drop) ∧
      (specialize_row_by_ctor2_row t a (rs ++ [Pattern.Ctor u id cargs]) =
        if id = t then .Keep (rs ++ cargs) else .Drop) ∧
      (specialize_row_by_ctor t a (rs ++ [Pattern.Anything]) =
        .Keep (List.replicate a .Anything ++ rs)) ∧
      (specialize_row_by_ctor2_row t a (rs ++ [Pattern.Anything]) =
        .Keep (rs ++ List.replicate a .Anything)) ∧
      (cargs ++ rs).Perm (rs ++ cargs) := by
  intro t a rs u id cargs
  exact ⟨spec_ctor_concat_ctor t a rs u id cargs,
    spec_ctor2_concat_ctor t a rs u id cargs,
    spec_ctor_concat_any t a rs,
    spec_ctor2_concat_any t a rs,
    List.perm_append_comm⟩

end RocExhaustive
